import Mathlib

/-!
Verification development for the YOLO-TouchDesigner postprocessing pipeline.

The JavaScript sources are embedded shallowly: JS numbers are modelled as
rationals, typed arrays as total functions from indices to rationals,
JS Map (insertion-ordered) as association lists, and the stable
Array.prototype.sort with comparator (a, b) => b.score - a.score as a
stable merge sort by descending score.
-/

namespace Yolo

/-- Axis-aligned box in pixel space, as the 4-element arrays of the source. -/
def Box := ℚ × ℚ × ℚ × ℚ
deriving DecidableEq, Inhabited, Repr

/-- Keypoint record of the pose decoders. -/
structure KP where
  x : ℚ
  y : ℚ
  score : ℚ
deriving DecidableEq, Repr

/-- Detection record as produced by the head decoders.  Labels are kept as
rationals because decodeYOLOv26 reads the class id straight from the float
tensor.  The optional angle models the dynamically attached angle field. -/
structure Det where
  box : Box
  label : ℚ
  score : ℚ
  angle : Option ℚ := none
  keypoints : List KP := []
deriving DecidableEq, Repr

/-- iou from src/src/utils/math.js: intersection over union of two
x,y,w,h boxes with an epsilon of 1e-9 in the denominator. -/
def iou (a b : Box) : ℚ :=
  let (ax, ay, aw, ah) := a
  let (bx, by', bw, bh) := b
  let ax2 := ax + aw
  let ay2 := ay + ah
  let bx2 := bx + bw
  let by2 := by' + bh
  let ix := max ax bx
  let iy := max ay by'
  let ix2 := min ax2 bx2
  let iy2 := min ay2 by2
  let iw := max 0 (ix2 - ix)
  let ih := max 0 (iy2 - iy)
  let inter := iw * ih
  let uni := aw * ah + bw * bh - inter + 1/1000000000
  inter / uni

/-- mapBoxYFlipNorm from src/src/utils/math.js: pixel box to
bottom-left-origin unit-square coordinates for an H-tall frame. -/
def mapBoxYFlipNorm (b : Box) (H : ℚ) : Box :=
  let (x, y, w, h) := b
  (x / H, (H - (y + h)) / H, w / H, h / H)

/-- Modelled from the spec: the inverse map named by the round-trip claim,
taking normalized bottom-left coordinates back to the pixel box as
(tx*H, H-(ty*H+height*H), width*H, height*H). -/
def unmapBoxYFlipNorm (b : Box) (H : ℚ) : Box :=
  let (tx, ty, w, h) := b
  (tx * H, H - (ty * H + h * H), w * H, h * H)

/-- Descending-score order used by every sort comparator
(a, b) => b.score - a.score of the sources. -/
def scoreGE (a b : Det) : Prop := b.score ≤ a.score

instance : DecidableRel scoreGE :=
  fun a b => inferInstanceAs (Decidable (b.score ≤ a.score))

instance : IsTotal Det scoreGE := ⟨fun a b => le_total b.score a.score⟩

instance : IsTrans Det scoreGE :=
  ⟨fun _ _ _ h1 h2 => le_trans h2 h1⟩

/-- Stable descending sort by score, modelling the stable JS
Array.prototype.sort with comparator (a, b) => b.score - a.score. -/
def sortByScoreDesc (l : List Det) : List Det :=
  l.insertionSort scoreGE

/-- Insertion-ordered key set of a JS Map: append a key if not yet present. -/
def insertKey (ks : List ℚ) (l : ℚ) : List ℚ :=
  if l ∈ ks then ks else ks ++ [l]

/-- Keys of the byClass map of nmsPerClass, in first-occurrence order. -/
def classKeys (dets : List Det) : List ℚ :=
  dets.foldl (fun ks d => insertKey ks d.label) []

/-- Values pushed for one key of the byClass map, in encounter order. -/
def classGroup (dets : List Det) (c : ℚ) : List Det :=
  dets.filter (fun d => d.label = c)

/-- Inner greedy loop of nmsPerClass: keep a candidate if its IoU with every
already kept candidate is at most the threshold; stop the group as soon as
it holds topk members. -/
def greedyKeep (iouThr : ℚ) (topk : ℕ) : List Det → List Det → List Det
  | [], keep => keep
  | a :: rest, keep =>
    if keep.all (fun k => decide (iou a.box k.box ≤ iouThr)) then
      if topk ≤ (keep ++ [a]).length then keep ++ [a]
      else greedyKeep iouThr topk rest (keep ++ [a])
    else greedyKeep iouThr topk rest keep

/-- nmsPerClass from src/src/inference/postprocess.js: group by class label,
sort each group by descending score, greedily keep under the IoU threshold
with a per-group cap, then merge, re-sort and truncate globally. -/
def nmsPerClass (dets : List Det) (iouThr : ℚ) (topk : ℕ) : List Det :=
  let keepAll := (classKeys dets).flatMap
    (fun c => greedyKeep iouThr topk (sortByScoreDesc (classGroup dets c)) [])
  (sortByScoreDesc keepAll).take topk

/-- Raw output tensor: dims as JS exposes them, data as a total function so
that every index read the code performs is defined. -/
structure Tensor where
  dims : List ℕ
  data : ℕ → ℚ

/-- INPUT_W from src/src/config.js. -/
def INPUT_W : ℚ := 640

/-- INPUT_H from src/src/config.js. -/
def INPUT_H : ℚ := 640

/-- Per-candidate body of the decode loop of decodeYOLO_or_OBB. -/
def decodeCandidate (get : ℕ → ℕ → ℚ) (dim : ℕ) (thr : ℚ) (isObb : Bool)
    (i : ℕ) : Option Det :=
  let cx := get 0 i
  let cy := get 1 i
  let w := get 2 i
  let h := get 3 i
  let obj : ℚ := if isObb ∧ 5 < dim then get 5 i else 1
  let CLS_START : ℕ := if isObb then 6 else 4
  let best : ℚ × ℚ := (List.range' CLS_START (dim - CLS_START)).foldl
    (fun best c =>
      let s := get c i * obj
      if best.1 < s then (s, (c : ℚ) - (CLS_START : ℚ)) else best)
    (-1, -1)
  if best.1 < thr then none
  else
    let W := INPUT_W
    let H := INPUT_H
    let raw : Box :=
      if 0 < w ∧ 0 < h ∧ w ≤ W * 2 ∧ h ≤ H * 2 then
        (cx - w / 2, cy - h / 2, w, h)
      else
        (cx, cy, w - cx, h - cy)
    let bx := max 0 (min (W - 1) raw.1)
    let by' := max 0 (min (H - 1) raw.2.1)
    let bw := max 1 (min (W - bx) raw.2.2.1)
    let bh := max 1 (min (H - by') raw.2.2.2)
    let angle : Option ℚ := if isObb ∧ 4 < dim then some (get 4 i) else none
    some { box := (bx, by', bw, bh), label := best.2, score := best.1,
           angle := angle }

/-- decodeYOLO_or_OBB from src/src/inference/postprocess.js: layout probing
by comparing the trailing dims, best-class scan with optional objectness,
center-size versus corner-corner heuristic, clamping to the frame, and a
final descending sort truncated to topk. -/
def decodeYOLO_or_OBB (tensor : Tensor) (thr : ℚ) (topk : ℕ)
    (isObb : Bool) : List Det :=
  let d := tensor.data
  let sh := tensor.dims
  if sh.length ≠ 3 then []
  else
    let C0 := sh.getD 1 0
    let N0 := sh.getD 2 0
    let dim := if C0 < N0 then C0 else N0
    let num := if C0 < N0 then N0 else C0
    let channelsFirst := decide (C0 < N0)
    let get : ℕ → ℕ → ℚ := fun c i =>
      if channelsFirst then d (c * num + i) else d (i * dim + c)
    let out := (List.range num).filterMap (decodeCandidate get dim thr isObb)
    (sortByScoreDesc out).take topk

/-- Channel-count test of the pose decoder: c > 5 and (c - 5) divisible
by 3. -/
def looksPose (c : ℕ) : Bool :=
  decide (5 < c) && decide ((c - 5) % 3 = 0)

/-- decodeYOLOPose from src/src/inference/postprocess.js: probes both
trailing dims for a 5+3K channel count, rejects (with an empty list) a
tensor fitting neither, thresholds with strict greater-than, reads the
center-size box and K keypoint triples, sorts descending and truncates. -/
def decodeYOLOPose (raw_tensor : Tensor) (score_threshold : ℚ) (topk : ℕ)
    (W : ℚ := INPUT_W) (H : ℚ := INPUT_H) : List Det :=
  let sh := raw_tensor.dims
  let data := raw_tensor.data
  if sh.length ≠ 3 then []
  else if ¬ looksPose (sh.getD 1 0) ∧ ¬ looksPose (sh.getD 2 0) then []
  else
    let C := if looksPose (sh.getD 1 0) then sh.getD 1 0 else sh.getD 2 0
    let N := if looksPose (sh.getD 1 0) then sh.getD 2 0 else sh.getD 1 0
    let layoutCN := looksPose (sh.getD 1 0)
    let K := (C - 5) / 3
    let get : ℕ → ℕ → ℚ := fun c n =>
      if layoutCN then data (c * N + n) else data (n * C + c)
    let out := (List.range N).filterMap (fun i =>
      let score := get 4 i
      if score ≤ score_threshold then none
      else
        let cx := get 0 i
        let cy := get 1 i
        let w := get 2 i
        let h := get 3 i
        let bx := cx - 1/2 * w
        let by' := cy - 1/2 * h
        let keypoints := (List.range K).map (fun kp =>
          let base := 5 + kp * 3
          KP.mk (get base i) (get (base + 1) i) (get (base + 2) i))
        some { box := (bx, by', w, h), label := 0, score := score,
               keypoints := keypoints })
    (sortByScoreDesc out).take topk

/-- decodeYOLOv26 from the NMS-embedded decoder file: expects dims
[1, N, 6] with rows x1, y1, x2, y2, score, cls; thresholds with
greater-or-equal (it skips only score < threshold), converts corner-corner
to x,y,w,h, sorts descending and truncates. -/
def decodeYOLOv26 (tensor : Tensor) (score_threshold : ℚ) (topk : ℕ) :
    List Det :=
  let data := tensor.data
  let dims := tensor.dims
  if dims.length ≠ 3 ∨ dims.getD 2 0 ≠ 6 then []
  else
    let N := dims.getD 1 0
    let out := (List.range N).filterMap (fun i =>
      let off := i * 6
      let score := data (off + 4)
      if score < score_threshold then none
      else
        let x1 := data (off + 0)
        let y1 := data (off + 1)
        let x2 := data (off + 2)
        let y2 := data (off + 3)
        let cls := data (off + 5)
        some { box := (x1, y1, x2 - x1, y2 - y1), label := cls,
               score := score })
    (sortByScoreDesc out).take topk

/-- Result of parseHeader in src/src/main.js. -/
structure FrameJob where
  H : ℕ
  W : ℕ
  seq : ℕ
  td : ℕ
  payload : List ℕ
deriving DecidableEq, Repr

/-- Little-endian uint16 read at a byte offset. -/
def getUint16LE (buf : List ℕ) (o : ℕ) : ℕ :=
  buf.getD o 0 + 256 * buf.getD (o + 1) 0

/-- Little-endian uint32 read at a byte offset. -/
def getUint32LE (buf : List ℕ) (o : ℕ) : ℕ :=
  buf.getD o 0 + 256 * buf.getD (o + 1) 0 + 65536 * buf.getD (o + 2) 0
    + 16777216 * buf.getD (o + 3) 0

/-- parseHeader from src/src/main.js: null when the buffer is shorter than
16 bytes or when type, dtype or layout differ from 10, 1, 1; otherwise the
header fields and the payload after byte 16. -/
def parseHeader (buf : List ℕ) : Option FrameJob :=
  if buf.length < 16 then none
  else
    let type := buf.getD 0 0
    let dtype := buf.getD 1 0
    let layout := buf.getD 2 0
    let H := getUint16LE buf 4
    let W := getUint16LE buf 6
    let seq := getUint32LE buf 8
    let td := getUint32LE buf 12
    if type ≠ 10 ∨ dtype ≠ 1 ∨ layout ≠ 1 then none
    else some ⟨H, W, seq, td, buf.drop 16⟩

/-- Binary ws.onmessage handler of src/src/main.js, as the job it stores
into the pending slot: none when parseHeader rejects or when the parsed
height or width differ from the fixed 640 input resolution. -/
def onBinaryMessage (buf : List ℕ) : Option FrameJob :=
  match parseHeader buf with
  | none => none
  | some job => if job.H ≠ 640 ∨ job.W ≠ 640 then none else some job

/-- Track record owned by the IoUTracker. -/
structure Track where
  box : Box
  label : ℚ
  score : ℚ
  keypoints : List KP
  angle : Option ℚ
  age : ℕ
  hits : ℕ
  miss : ℕ
deriving DecidableEq, Repr

/-- Tracker state: the JS Map of tracks is an insertion-ordered association
list, nextId the fresh-id counter. -/
structure TrackerState where
  iouMatch : ℚ
  ttl : ℕ
  nextId : ℕ
  tracks : List (ℕ × Track)
deriving DecidableEq, Repr

/-- Output record of IoUTracker.update, the id plus the copied fields. -/
structure TrackOut where
  id : ℕ
  box : Box
  label : ℚ
  score : ℚ
  keypoints : List KP
  angle : Option ℚ
deriving DecidableEq, Repr

/-- Fresh tracker as built by the constructor. -/
def initTracker (iouMatch : ℚ) (ttl : ℕ) : TrackerState :=
  ⟨iouMatch, ttl, 1, []⟩

/-- Angle handling of copyExtras: a present source field overwrites, an
absent one leaves the destination untouched. -/
def copyAngle (src dst : Option ℚ) : Option ℚ :=
  match src with
  | some a => some a
  | none => dst

/-- First phase of update: increment miss on every existing track. -/
def bumpMiss (ts : List (ℕ × Track)) : List (ℕ × Track) :=
  ts.map (fun p => (p.1, { p.2 with miss := p.2.miss + 1 }))

/-- Pairwise IoU list of update: outer loop over detection indices, inner
loop over track ids, in map order. -/
def mkPairs (ts : List (ℕ × Track)) (dets : List Det) :
    List (ℚ × ℕ × ℕ) :=
  (dets.enum).flatMap (fun di =>
    ts.map (fun p => (iou p.2.box di.2.box, p.1, di.1)))

/-- Descending-confidence order of the pair sort of update. -/
def pairGE (p q : ℚ × ℕ × ℕ) : Prop := q.1 ≤ p.1

instance : DecidableRel pairGE :=
  fun p q => inferInstanceAs (Decidable (q.1 ≤ p.1))

/-- Stable descending sort of the IoU pairs, the JS comparator
(a, b) => b[0] - a[0]. -/
def sortPairsDesc (l : List (ℚ × ℕ × ℕ)) : List (ℚ × ℕ × ℕ) :=
  l.insertionSort pairGE

/-- Field overwrite performed on a matched track. -/
def matchTrack (t : Track) (d : Det) : Track :=
  { t with box := d.box, label := d.label, score := d.score,
           keypoints := d.keypoints, angle := copyAngle d.angle t.angle,
           hits := t.hits + 1, miss := 0 }

/-- Apply the match overwrite to the track with the given id. -/
def updateTrackList (ts : List (ℕ × Track)) (id : ℕ) (d : Det) :
    List (ℕ × Track) :=
  ts.map (fun p => if p.1 = id then (p.1, matchTrack p.2 d) else p)

/-- Greedy assignment loop of update over the sorted pairs: stop at the
first pair below the match threshold, skip claimed tracks and detections,
otherwise overwrite the track and claim both. -/
def assignLoop (m : ℚ) (dets : List Det) :
    List (ℚ × ℕ × ℕ) → List (ℕ × Track) × List ℕ × List ℕ →
    List (ℕ × Track) × List ℕ × List ℕ
  | [], st => st
  | (conf, id, di) :: rest, (ts, tT, tD) =>
    if conf < m then (ts, tT, tD)
    else if id ∈ tT ∨ di ∈ tD then assignLoop m dets rest (ts, tT, tD)
    else
      match dets[di]? with
      | none => assignLoop m dets rest (ts, tT, tD)
      | some d =>
        assignLoop m dets rest (updateTrackList ts id d, id :: tT, di :: tD)

/-- Fresh track built for an unmatched detection. -/
def mkTrack (d : Det) : Track :=
  { box := d.box, label := d.label, score := d.score,
    keypoints := d.keypoints, angle := copyAngle d.angle none,
    age := 0, hits := 1, miss := 0 }

/-- New-track phase of update: every unclaimed detection gets a fresh
sequential id appended at the end of the map. -/
def addNew (takenDet : List ℕ) :
    List (ℕ × Det) → ℕ → List (ℕ × Track) → ℕ × List (ℕ × Track)
  | [], nid, ts => (nid, ts)
  | (di, d) :: rest, nid, ts =>
    if di ∈ takenDet then addNew takenDet rest nid ts
    else addNew takenDet rest (nid + 1) (ts ++ [(nid, mkTrack d)])

/-- Age-and-prune phase: increment age everywhere, delete tracks whose miss
exceeds the ttl. -/
def agePrune (ttl : ℕ) (ts : List (ℕ × Track)) : List (ℕ × Track) :=
  (ts.map (fun p => (p.1, { p.2 with age := p.2.age + 1 }))).filter
    (fun p => decide (p.2.miss ≤ ttl))

/-- Output phase: emit only tracks with miss equal to zero. -/
def emitTracks (ts : List (ℕ × Track)) : List TrackOut :=
  (ts.filter (fun p => p.2.miss = 0)).map (fun p =>
    ⟨p.1, p.2.box, p.2.label, p.2.score, p.2.keypoints, p.2.angle⟩)

/-- IoUTracker.update from the tracker source: miss bump, pairwise IoU,
stable descending sort, greedy assignment, new-track creation, age and
prune, then emission of the miss-zero tracks. -/
def update (s : TrackerState) (dets : List Det) :
    TrackerState × List TrackOut :=
  let ts1 := bumpMiss s.tracks
  let pairs := sortPairsDesc (mkPairs ts1 dets)
  let asg := assignLoop s.iouMatch dets pairs (ts1, [], [])
  let an := addNew asg.2.2 dets.enum s.nextId asg.1
  let ts4 := agePrune s.ttl an.2
  ({ s with nextId := an.1, tracks := ts4 }, emitTracks ts4)

/-- Fold of update over a sequence of per-frame detection lists. -/
def runUpdates (s : TrackerState) (seqs : List (List Det)) : TrackerState :=
  seqs.foldl (fun s dets => (update s dets).1) s

/-- Ids currently present in a tracker state. -/
def trackIds (s : TrackerState) : List ℕ :=
  s.tracks.map Prod.fst

/-- Mask logit of decodeYOLOSeg at a pixel: the coefficient vector dotted
with the prototype channel stack at that pixel. -/
def maskLogit (coeffs : List ℚ) (protoData : ℕ → ℚ) (MHMW i : ℕ) : ℚ :=
  (List.range coeffs.length).foldl
    (fun s c => s + coeffs.getD c 0 * protoData (c * MHMW + i)) 0

/-- Per-pixel packing step of decodeYOLOSeg: overwrite when the biased
opacity exceeds the fractional part of the stored value, writing
classId + 1 + opacity * 0.99. -/
def compositePixel (clsID alpha cur : ℚ) : ℚ :=
  if alpha * 0.999 > cur - (⌊cur⌋ : ℚ) then clsID + 1 + alpha * 0.99
  else cur

/-- Innermost x-loop body of the decodeYOLOSeg pixel loop: compute the
opacity at pixel i = y*MW + x and apply the packing step there. -/
def compositeStep (sigma : ℚ → ℚ) (clsID : ℚ) (coeffs : List ℚ)
    (protoData : ℕ → ℚ) (MW MH y : ℕ) (om : ℕ → ℚ) (x : ℕ) : ℕ → ℚ :=
  let i := y * MW + x
  let alpha := sigma (maskLogit coeffs protoData (MH * MW) i)
  let v := compositePixel clsID alpha (om i)
  fun j => if j = i then v else om j

/-- One row of the decodeYOLOSeg pixel loop. -/
def compositeRow (sigma : ℚ → ℚ) (clsID : ℚ) (coeffs : List ℚ)
    (protoData : ℕ → ℚ) (MW MH mx1 mx2 : ℕ) (om : ℕ → ℚ) (y : ℕ) :
    ℕ → ℚ :=
  (List.range' mx1 (mx2 - mx1)).foldl
    (compositeStep sigma clsID coeffs protoData MW MH y) om

/-- Pixel loop of decodeYOLOSeg over one surviving instance's scaled
bounding box; the logistic of the source is the parameter sigma, applied
to the mask logit to obtain the opacity. -/
def compositeInstance (sigma : ℚ → ℚ) (clsID : ℚ) (coeffs : List ℚ)
    (protoData : ℕ → ℚ) (MW MH mx1 mx2 my1 my2 : ℕ) (outMap : ℕ → ℚ) :
    ℕ → ℚ :=
  (List.range' my1 (my2 - my1)).foldl
    (fun om y => compositeRow sigma clsID coeffs protoData MW MH mx1 mx2 om y)
    outMap

/-- Invariant of the tracker id counter: every live id is at least 1 and
below nextId, and nextId itself is at least 1. -/
def idsBounded (s : TrackerState) : Prop :=
  (∀ id ∈ trackIds s, 1 ≤ id ∧ id < s.nextId) ∧ 1 ≤ s.nextId

/-- Concrete detect tensor of shape [1, 5, 6] whose single strong candidate
has best class score exactly 1/2. -/
def ctTensor : Tensor :=
  { dims := [1, 5, 6],
    data := fun i =>
      ([320, 0, 0, 0, 0, 0, 320, 0, 0, 0, 0, 0, 10, 0, 0, 0, 0, 0,
        10, 0, 0, 0, 0, 0, 1/2, 0, 0, 0, 0, 0] : List ℚ).getD i 0 }

/-- Detection the decoder produces from ctTensor. -/
def ctDet : Det :=
  { box := (315, 315, 10, 10), label := 0, score := 1/2 }

/-- Concrete NMS-embedded tensor of shape [1, 1, 6] whose row has score
exactly 1/2. -/
def v26Tensor : Tensor :=
  { dims := [1, 1, 6],
    data := fun i => ([10, 10, 20, 20, 1/2, 3] : List ℚ).getD i 0 }

/-- Detection the NMS-embedded decoder produces from v26Tensor. -/
def v26Det : Det := { box := (10, 10, 10, 10), label := 3, score := 1/2 }

/-- Concrete pose tensor of shape [1, 8, 1] with one candidate of score
5/8 and one keypoint. -/
def poseTensor : Tensor :=
  { dims := [1, 8, 1],
    data := fun i => ([10, 10, 4, 4, 5/8, 1, 2, 3] : List ℚ).getD i 0 }

/-- Detection the pose decoder produces from poseTensor. -/
def poseDet : Det :=
  { box := (8, 8, 4, 4), label := 0, score := 5/8,
    keypoints := [⟨1, 2, 3⟩] }

/-- Concrete detections for the idempotence counterexample: disjoint boxes,
one class-0 detection and two class-1 detections with a score tie across
the classes. -/
def cexDets : List Det :=
  [{ box := (0, 0, 10, 10), label := 0, score := 1 },
   { box := (20, 0, 10, 10), label := 1, score := 3 },
   { box := (40, 0, 10, 10), label := 1, score := 1 }]

/-- Concrete detection used in the tracker and NMS witnesses. -/
def wDet : Det := { box := (0, 0, 10, 10), label := 0, score := 1 }

/-- Second concrete detection, same class, disjoint box, lower score. -/
def wDet2 : Det := { box := (40, 0, 10, 10), label := 0, score := 1/2 }

end Yolo

unseal Rat.add Rat.mul Rat.sub Rat.inv Rat.ofScientific

namespace Yolo

lemma looksPose_iff (c : ℕ) :
    looksPose c = true ↔ (5 < c ∧ (c - 5) % 3 = 0) := by
  simp [looksPose]

/-- C5: mapping a pixel box to normalized bottom-left unit-square
coordinates for a frame of height H > 0 and applying the inverse map
reproduces the original pixel box exactly. -/
theorem box_norm_roundtrip (b : Box) (H : ℚ) (hH : 0 < H) :
    unmapBoxYFlipNorm (mapBoxYFlipNorm b H) H = b := by
  obtain ⟨x, y, w, h⟩ := b
  have h0 : H ≠ 0 := ne_of_gt hH
  show (_ : ℚ × ℚ × ℚ × ℚ) = _
  simp only [mapBoxYFlipNorm, unmapBoxYFlipNorm, Prod.mk.injEq]
  refine ⟨?_, ?_, ?_, ?_⟩ <;> field_simp <;> ring

/-- Witness for box_norm_roundtrip at the box (5, 7, 11, 13) and frame
height 640. -/
theorem box_norm_roundtrip_witness :
    (0:ℚ) < 640 ∧
      unmapBoxYFlipNorm (mapBoxYFlipNorm (5, 7, 11, 13) 640) 640
        = (5, 7, 11, 13) :=
  ⟨by norm_num, box_norm_roundtrip (5, 7, 11, 13) 640 (by norm_num)⟩

/-- C6: the pose decoder returns the empty list for any tensor whose dims
length is not 3, and for any 3-dimensional tensor both of whose trailing
dims fail the channel-count predicate c > 5 and (c - 5) % 3 = 0. -/
theorem pose_shape_reject (t : Tensor) (thr : ℚ) (topk : ℕ) (W H : ℚ) :
    (t.dims.length ≠ 3 → decodeYOLOPose t thr topk W H = []) ∧
    (¬ (5 < t.dims.getD 1 0 ∧ (t.dims.getD 1 0 - 5) % 3 = 0) →
     ¬ (5 < t.dims.getD 2 0 ∧ (t.dims.getD 2 0 - 5) % 3 = 0) →
      decodeYOLOPose t thr topk W H = []) := by
  constructor
  · intro h
    unfold decodeYOLOPose
    simp [h]
  · intro h1 h2
    have e1 : looksPose (t.dims.getD 1 0) = false := by
      rw [Bool.eq_false_iff]
      intro hb
      exact h1 ((looksPose_iff _).mp hb)
    have e2 : looksPose (t.dims.getD 2 0) = false := by
      rw [Bool.eq_false_iff]
      intro hb
      exact h2 ((looksPose_iff _).mp hb)
    simp only [List.getD_eq_getElem?_getD] at e1 e2
    simp only [decodeYOLOPose]
    by_cases h3 : t.dims.length ≠ 3
    · rw [if_pos h3]
    · rw [if_neg h3, if_pos ⟨by simp [e1], by simp [e2]⟩]

/-- Witness for pose_shape_reject: a 2-dimensional tensor and a
[1, 7, 7] tensor (7 = 5 + 2 is not of the form 5 + 3K) are both decoded
to the empty list. -/
theorem pose_shape_reject_witness :
    decodeYOLOPose { dims := [1, 7], data := fun _ => 0 } 1 5 640 640 = []
    ∧ decodeYOLOPose { dims := [1, 7, 7], data := fun _ => 0 } 1 5 640 640
      = [] :=
  ⟨(pose_shape_reject _ 1 5 640 640).1 (by decide),
   (pose_shape_reject _ 1 5 640 640).2 (by decide) (by decide)⟩

/-- C7: parseHeader returns none for every buffer shorter than 16 bytes
and for every buffer whose type, dtype or layout bytes differ from
10, 1, 1; and a parsed frame whose height or width differ from 640 is
dropped by the binary message handler instead of being queued. -/
theorem ingest_reject (buf : List ℕ) :
    (buf.length < 16 → parseHeader buf = none) ∧
    (buf.getD 0 0 ≠ 10 ∨ buf.getD 1 0 ≠ 1 ∨ buf.getD 2 0 ≠ 1 →
      parseHeader buf = none) ∧
    (∀ job, parseHeader buf = some job → job.H ≠ 640 ∨ job.W ≠ 640 →
      onBinaryMessage buf = none) := by
  refine ⟨fun h => by simp [parseHeader, h], fun h => ?_, fun job hp hHW => ?_⟩
  · simp only [parseHeader]
    by_cases hl : buf.length < 16
    · rw [if_pos hl]
    · rw [if_neg hl, if_pos h]
  · unfold onBinaryMessage
    rw [hp]
    simp [hHW]

/-- Witness for ingest_reject: a 15-byte buffer, a 16-byte buffer with a
wrong type byte, and a well-formed header with height 1 are all dropped. -/
theorem ingest_reject_witness :
    parseHeader (List.replicate 15 0) = none ∧
    parseHeader (0 :: List.replicate 15 0) = none ∧
    onBinaryMessage [10, 1, 1, 0, 1, 0, 128, 2, 1, 0, 0, 0, 1, 0, 0, 0]
      = none :=
  ⟨(ingest_reject _).1 (by decide),
   (ingest_reject _).2.1 (by decide),
   (ingest_reject _).2.2 ⟨1, 640, 1, 1, []⟩ (by decide) (by decide)⟩

end Yolo

namespace Yolo

lemma mem_sortTake {d : Det} {l : List Det} {k : ℕ}
    (h : d ∈ (sortByScoreDesc l).take k) : d ∈ l :=
  (List.perm_insertionSort scoreGE l).subset (List.take_subset _ _ h)

lemma ite_none_eq_some {α : Type} {p : Prop} [Decidable p] {a b : α}
    (h : (if p then none else some a) = some b) : ¬p ∧ a = b := by
  split at h
  · exact absurd h (by simp)
  · rename_i hp
    exact ⟨hp, Option.some.inj h⟩

lemma decodeCandidate_some_score {get : ℕ → ℕ → ℚ} {dim : ℕ} {thr : ℚ}
    {isObb : Bool} {i : ℕ} {d : Det}
    (h : decodeCandidate get dim thr isObb i = some d) : thr ≤ d.score := by
  simp only [decodeCandidate] at h
  obtain ⟨hge, heq⟩ := ite_none_eq_some h
  subst heq
  exact not_lt.mp hge

/-- C3 counterexample: both the generic detect decoder and the NMS-embedded
decoder keep a candidate whose score equals the score threshold exactly, so
acceptance at the threshold is not strict for every head decoder. -/
theorem threshold_counterexample :
    (decodeYOLO_or_OBB ctTensor (1/2) 10 false).map Det.score = [1/2] ∧
    (decodeYOLOv26 v26Tensor (1/2) 10).map Det.score = [1/2] := by
  decide

/-- C3 amended: the pose decoder accepts only scores strictly above the
threshold, while the generic/OBB decoder and the NMS-embedded v26 decoder
accept any score at least the threshold (a candidate exactly at the
threshold is kept by them, rejected only by the pose decoder). -/
theorem threshold_semantics (t : Tensor) (thr : ℚ) (topk : ℕ)
    (isObb : Bool) (W H : ℚ) :
    (∀ d ∈ decodeYOLOPose t thr topk W H, thr < d.score) ∧
    (∀ d ∈ decodeYOLO_or_OBB t thr topk isObb, thr ≤ d.score) ∧
    (∀ d ∈ decodeYOLOv26 t thr topk, thr ≤ d.score) := by
  refine ⟨fun d hd => ?_, fun d hd => ?_, fun d hd => ?_⟩
  · simp only [decodeYOLOPose] at hd
    split at hd
    · simp at hd
    · split at hd
      · simp at hd
      · obtain ⟨i, _, hi⟩ := List.mem_filterMap.mp (mem_sortTake hd)
        obtain ⟨hgt, heq⟩ := ite_none_eq_some hi
        subst heq
        exact not_le.mp hgt
  · simp only [decodeYOLO_or_OBB] at hd
    split at hd
    · simp at hd
    · obtain ⟨i, _, hi⟩ := List.mem_filterMap.mp (mem_sortTake hd)
      exact decodeCandidate_some_score hi
  · simp only [decodeYOLOv26] at hd
    split at hd
    · simp at hd
    · obtain ⟨i, _, hi⟩ := List.mem_filterMap.mp (mem_sortTake hd)
      obtain ⟨hge, heq⟩ := ite_none_eq_some hi
      subst heq
      exact not_lt.mp hge

/-- Witness for threshold_semantics on the three concrete tensors. -/
theorem threshold_semantics_witness :
    ((1:ℚ)/4 < poseDet.score) ∧ ((1:ℚ)/2 ≤ ctDet.score) ∧
      ((1:ℚ)/2 ≤ v26Det.score) :=
  ⟨(threshold_semantics poseTensor (1/4) 10 false 640 640).1 poseDet
      (by decide),
   (threshold_semantics ctTensor (1/2) 10 false 640 640).2.1 ctDet
      (by decide),
   (threshold_semantics v26Tensor (1/2) 10 false 640 640).2.2 v26Det
      (by decide)⟩

lemma sortTake_pairwise (l : List Det) (k : ℕ) :
    ((sortByScoreDesc l).take k).Pairwise (fun a b => b.score ≤ a.score) :=
  List.Pairwise.sublist (List.take_sublist _ _)
    (List.sorted_insertionSort scoreGE l)

lemma sortTake_len (l : List Det) (k : ℕ) :
    ((sortByScoreDesc l).take k).length ≤ k := by
  simp [List.length_take]

/-- C8: the generic/OBB decoder and the pose decoder always return a list
sorted by descending score whose length is at most topk. -/
theorem decoder_sorted_bounded (t : Tensor) (thr : ℚ) (topk : ℕ)
    (isObb : Bool) (W H : ℚ) :
    ((decodeYOLO_or_OBB t thr topk isObb).Pairwise
        (fun a b => b.score ≤ a.score) ∧
      (decodeYOLO_or_OBB t thr topk isObb).length ≤ topk) ∧
    ((decodeYOLOPose t thr topk W H).Pairwise
        (fun a b => b.score ≤ a.score) ∧
      (decodeYOLOPose t thr topk W H).length ≤ topk) := by
  constructor
  · simp only [decodeYOLO_or_OBB]
    split
    · simp
    · exact ⟨sortTake_pairwise _ _, sortTake_len _ _⟩
  · simp only [decodeYOLOPose]
    split
    · simp
    · split
      · simp
      · exact ⟨sortTake_pairwise _ _, sortTake_len _ _⟩

lemma decodeCandidate_some_box {get : ℕ → ℕ → ℚ} {dim : ℕ} {thr : ℚ}
    {isObb : Bool} {i : ℕ} {d : Det}
    (h : decodeCandidate get dim thr isObb i = some d) :
    0 ≤ d.box.1 ∧ d.box.1 ≤ 639 ∧ 0 ≤ d.box.2.1 ∧ d.box.2.1 ≤ 639 ∧
    1 ≤ d.box.2.2.1 ∧ d.box.2.2.1 ≤ 640 - d.box.1 ∧
    1 ≤ d.box.2.2.2 ∧ d.box.2.2.2 ≤ 640 - d.box.2.1 := by
  have clamp1 : ∀ a : ℚ, (0:ℚ) ≤ max 0 (min (640 - 1) a) :=
    fun a => le_max_left _ _
  have clamp2 : ∀ a : ℚ, max 0 (min (640 - 1) a) ≤ 639 :=
    fun a => max_le (by norm_num)
      (le_trans (min_le_left _ _) (by norm_num))
  have clamp3 : ∀ b a : ℚ, b ≤ 639 → max 1 (min (640 - b) a) ≤ 640 - b :=
    fun b a hb => max_le (by linarith) (min_le_left _ _)
  have clamp4 : ∀ b a : ℚ, (1:ℚ) ≤ max 1 (min (640 - b) a) :=
    fun b a => le_max_left _ _
  simp only [decodeCandidate, INPUT_W, INPUT_H] at h
  obtain ⟨_, heq⟩ := ite_none_eq_some h
  subst heq
  exact ⟨clamp1 _, clamp2 _, clamp1 _, clamp2 _, clamp4 _ _,
    clamp3 _ _ (clamp2 _), clamp4 _ _, clamp3 _ _ (clamp2 _)⟩

/-- C10: every detection returned by the generic/OBB decoder has a box
inside the 640x640 frame with x and y in [0, 639] and width and height at
least 1 and fitting inside the frame. -/
theorem box_clamped (t : Tensor) (thr : ℚ) (topk : ℕ) (isObb : Bool)
    (d : Det) (hd : d ∈ decodeYOLO_or_OBB t thr topk isObb) :
    0 ≤ d.box.1 ∧ d.box.1 ≤ 639 ∧ 0 ≤ d.box.2.1 ∧ d.box.2.1 ≤ 639 ∧
    1 ≤ d.box.2.2.1 ∧ d.box.2.2.1 ≤ 640 - d.box.1 ∧
    1 ≤ d.box.2.2.2 ∧ d.box.2.2.2 ≤ 640 - d.box.2.1 := by
  simp only [decodeYOLO_or_OBB] at hd
  split at hd
  · simp at hd
  · obtain ⟨i, _, hi⟩ := List.mem_filterMap.mp (mem_sortTake hd)
    exact decodeCandidate_some_box hi

/-- Witness for box_clamped at the detection decoded from ctTensor. -/
theorem box_clamped_witness :
    0 ≤ ctDet.box.1 ∧ ctDet.box.1 ≤ 639 ∧ 0 ≤ ctDet.box.2.1 ∧
    ctDet.box.2.1 ≤ 639 ∧ 1 ≤ ctDet.box.2.2.1 ∧
    ctDet.box.2.2.1 ≤ 640 - ctDet.box.1 ∧ 1 ≤ ctDet.box.2.2.2 ∧
    ctDet.box.2.2.2 ≤ 640 - ctDet.box.2.1 :=
  box_clamped ctTensor (1/2) 10 false ctDet (by decide)

end Yolo

namespace Yolo

lemma iou_comm (a b : Box) : iou a b = iou b a := by
  obtain ⟨ax, ay, aw, ah⟩ := a
  obtain ⟨bx, by', bw, bh⟩ := b
  simp only [iou]
  rw [max_comm ax bx, max_comm ay by', min_comm (ax + aw) (bx + bw),
    min_comm (ay + ah) (by' + bh)]
  ring_nf

lemma greedyKeep_subset {t : ℚ} {tk : ℕ} :
    ∀ {l keep : List Det} {x : Det},
      x ∈ greedyKeep t tk l keep → x ∈ keep ∨ x ∈ l := by
  intro l
  induction l with
  | nil => exact fun h => Or.inl h
  | cons a rest ih =>
    intro keep x h
    simp only [greedyKeep] at h
    split at h
    · split at h
      · rcases List.mem_append.mp h with h1 | h2
        · exact Or.inl h1
        · simp only [List.mem_singleton] at h2
          exact Or.inr (h2 ▸ List.mem_cons_self a rest)
      · rcases ih h with h1 | h2
        · rcases List.mem_append.mp h1 with h3 | h4
          · exact Or.inl h3
          · simp only [List.mem_singleton] at h4
            exact Or.inr (h4 ▸ List.mem_cons_self a rest)
        · exact Or.inr (List.mem_cons_of_mem _ h2)
    · rcases ih h with h1 | h2
      · exact Or.inl h1
      · exact Or.inr (List.mem_cons_of_mem _ h2)

lemma greedyKeep_pairwise {t : ℚ} {tk : ℕ} :
    ∀ {l keep : List Det},
      keep.Pairwise (fun x y => iou y.box x.box ≤ t) →
      (greedyKeep t tk l keep).Pairwise (fun x y => iou y.box x.box ≤ t) := by
  intro l
  induction l with
  | nil => exact fun h => h
  | cons a rest ih =>
    intro keep hk
    simp only [greedyKeep]
    split
    · rename_i hall
      have hka : (keep ++ [a]).Pairwise (fun x y => iou y.box x.box ≤ t) := by
        rw [List.pairwise_append]
        refine ⟨hk, List.pairwise_singleton _ _, fun b hb c hc => ?_⟩
        simp only [List.mem_singleton] at hc
        subst hc
        exact of_decide_eq_true (List.all_eq_true.mp hall b hb)
      split
      · exact hka
      · exact ih hka
    · exact ih hk

lemma mem_insertKey {ks : List ℚ} {l a : ℚ} :
    a ∈ insertKey ks l ↔ a ∈ ks ∨ a = l := by
  unfold insertKey
  split
  · rename_i h
    constructor
    · exact Or.inl
    · rintro (ha | rfl)
      · exact ha
      · exact h
  · simp

lemma insertKey_nodup {ks : List ℚ} {l : ℚ} (h : ks.Nodup) :
    (insertKey ks l).Nodup := by
  unfold insertKey
  split
  · exact h
  · rename_i hm
    simp [List.nodup_append, h, hm]

lemma foldl_insertKey_nodup (dets : List Det) :
    ∀ acc : List ℚ, acc.Nodup →
      (dets.foldl (fun ks d => insertKey ks d.label) acc).Nodup := by
  induction dets with
  | nil => exact fun _ h => h
  | cons d rest ih => exact fun _ h => ih _ (insertKey_nodup h)

lemma mem_foldl_insertKey (dets : List Det) :
    ∀ (acc : List ℚ) (a : ℚ),
      a ∈ dets.foldl (fun ks d => insertKey ks d.label) acc ↔
        a ∈ acc ∨ ∃ d ∈ dets, d.label = a := by
  induction dets with
  | nil => simp
  | cons d rest ih =>
    intro acc a
    rw [List.foldl_cons, ih, mem_insertKey]
    simp only [List.mem_cons]
    constructor
    · rintro ((ha | rfl) | ⟨d', hd', rfl⟩)
      · exact Or.inl ha
      · exact Or.inr ⟨d, Or.inl rfl, rfl⟩
      · exact Or.inr ⟨d', Or.inr hd', rfl⟩
    · rintro (ha | ⟨d', (rfl | hd'), rfl⟩)
      · exact Or.inl (Or.inl ha)
      · exact Or.inl (Or.inr rfl)
      · exact Or.inr ⟨d', hd', rfl⟩

lemma classKeys_nodup (dets : List Det) : (classKeys dets).Nodup :=
  foldl_insertKey_nodup dets [] List.nodup_nil

lemma mem_classKeys {dets : List Det} {c : ℚ} :
    c ∈ classKeys dets ↔ ∃ d ∈ dets, d.label = c := by
  rw [classKeys, mem_foldl_insertKey]
  simp

lemma mem_classGroup {dets : List Det} {c : ℚ} {x : Det} :
    x ∈ classGroup dets c ↔ x ∈ dets ∧ x.label = c := by
  simp [classGroup]

lemma pairwise_flatMap_groups {t : ℚ} {f : ℚ → List Det} :
    ∀ {ks : List ℚ}, ks.Nodup →
      (∀ c ∈ ks, (f c).Pairwise (fun x y => x.label = y.label →
        iou x.box y.box ≤ t ∧ iou y.box x.box ≤ t)) →
      (∀ c ∈ ks, ∀ x ∈ f c, x.label = c) →
      (ks.flatMap f).Pairwise (fun x y => x.label = y.label →
        iou x.box y.box ≤ t ∧ iou y.box x.box ≤ t) := by
  intro ks
  induction ks with
  | nil => simp
  | cons c ks' ih =>
    intro hnd hin hlab
    rw [List.flatMap_cons, List.pairwise_append]
    refine ⟨hin c (List.mem_cons_self _ _),
      ih hnd.of_cons (fun c' hc' => hin c' (List.mem_cons_of_mem _ hc'))
        (fun c' hc' => hlab c' (List.mem_cons_of_mem _ hc')), ?_⟩
    intro x hx y hy hl
    obtain ⟨c', hc', hyc'⟩ := List.mem_flatMap.mp hy
    have hxl : x.label = c := hlab c (List.mem_cons_self _ _) x hx
    have hyl : y.label = c' := hlab c' (List.mem_cons_of_mem _ hc') y hyc'
    have hcc : c = c' := by rw [← hxl, hl, hyl]
    exact absurd (hcc ▸ hc') (List.nodup_cons.mp hnd).1

lemma nms_pairwise (dets : List Det) (t : ℚ) (tk : ℕ) :
    (nmsPerClass dets t tk).Pairwise (fun x y => x.label = y.label →
      iou x.box y.box ≤ t ∧ iou y.box x.box ≤ t) := by
  have hsym : ∀ {x y : Det},
      (x.label = y.label → iou x.box y.box ≤ t ∧ iou y.box x.box ≤ t) →
      (y.label = x.label → iou y.box x.box ≤ t ∧ iou x.box y.box ≤ t) :=
    fun hxy hl => ⟨(hxy hl.symm).2, (hxy hl.symm).1⟩
  simp only [nmsPerClass]
  apply List.Pairwise.sublist (List.take_sublist _ _)
  rw [sortByScoreDesc,
    List.Perm.pairwise_iff hsym (List.perm_insertionSort scoreGE _)]
  apply pairwise_flatMap_groups (classKeys_nodup dets)
  · intro c _
    exact (greedyKeep_pairwise List.Pairwise.nil).imp
      (fun {x y} h _ => ⟨by rw [iou_comm]; exact h, h⟩)
  · intro c _ x hx
    rcases greedyKeep_subset hx with h1 | h2
    · simp at h1
    · have hg : x ∈ classGroup dets c :=
        (List.perm_insertionSort scoreGE _).subset h2
      exact (mem_classGroup.mp hg).2

/-- C1: the per-class suppressor never returns two distinct detections of
the same class whose IoU exceeds the threshold. -/
theorem nms_same_class_iou (dets : List Det) (t : ℚ) (tk : ℕ) (i j : ℕ)
    (a b : Det) (hij : i ≠ j)
    (ha : (nmsPerClass dets t tk)[i]? = some a)
    (hb : (nmsPerClass dets t tk)[j]? = some b)
    (hlab : a.label = b.label) :
    iou a.box b.box ≤ t := by
  have hp := nms_pairwise dets t tk
  rw [List.pairwise_iff_getElem] at hp
  obtain ⟨hi, rfl⟩ := List.getElem?_eq_some_iff.mp ha
  obtain ⟨hj, rfl⟩ := List.getElem?_eq_some_iff.mp hb
  rcases Nat.lt_or_ge i j with h | h
  · exact (hp i j hi hj h hlab).1
  · exact (hp j i hj hi (lt_of_le_of_ne h (Ne.symm hij)) hlab.symm).2

/-- Witness for nms_same_class_iou: two kept same-class detections with
disjoint boxes. -/
theorem nms_same_class_iou_witness :
    iou wDet.box wDet2.box ≤ 1/2 :=
  nms_same_class_iou [wDet, wDet2] (1/2) 10 0 1 wDet wDet2 (by decide)
    (by decide) (by decide) (by decide)

end Yolo

namespace Yolo

lemma nms_length_le (dets : List Det) (t : ℚ) (tk : ℕ) :
    (nmsPerClass dets t tk).length ≤ tk := by
  simp only [nmsPerClass]
  simp [List.length_take]

lemma greedyKeep_all_kept {t : ℚ} {tk : ℕ} :
    ∀ {l keep : List Det},
      l.Pairwise (fun x y => iou y.box x.box ≤ t ∧ iou x.box y.box ≤ t) →
      (∀ x ∈ l, ∀ y ∈ keep, iou x.box y.box ≤ t) →
      keep.length + l.length ≤ tk →
      greedyKeep t tk l keep = keep ++ l := by
  intro l
  induction l with
  | nil =>
    intro keep _ _ _
    simp [greedyKeep]
  | cons a rest ih =>
    intro keep hpair hcompat hlen
    simp only [greedyKeep]
    rw [if_pos (List.all_eq_true.mpr fun y hy =>
      decide_eq_true (hcompat a (List.mem_cons_self _ _) y hy))]
    split
    · rename_i htk
      have hr : rest = [] := by
        rw [← List.length_eq_zero]
        simp only [List.length_append, List.length_cons,
          List.length_nil] at htk hlen
        omega
      subst hr
      simp
    · rename_i htk
      rw [ih (List.pairwise_cons.mp hpair).2 ?_ ?_]
      · simp
      · intro x hx y hy
        rcases List.mem_append.mp hy with h1 | h2
        · exact hcompat x (List.mem_cons_of_mem _ hx) y h1
        · simp only [List.mem_singleton] at h2
          subst h2
          exact ((List.pairwise_cons.mp hpair).1 x hx).1
      · simp only [List.length_append, List.length_cons,
          List.length_nil] at hlen ⊢
        omega

lemma nms_group_pairwise (dets : List Det) (t : ℚ) (tk : ℕ) (c : ℚ) :
    (classGroup (nmsPerClass dets t tk) c).Pairwise
      (fun x y => iou y.box x.box ≤ t ∧ iou x.box y.box ≤ t) := by
  have hp := nms_pairwise dets t tk
  have hsub : (classGroup (nmsPerClass dets t tk) c).Sublist
      (nmsPerClass dets t tk) := by
    rw [classGroup]
    exact List.filter_sublist _
  have hps := List.Pairwise.sublist hsub hp
  refine hps.imp_of_mem (fun {x y} hx hy hS => ?_)
  have hxl := (mem_classGroup.mp hx).2
  have hyl := (mem_classGroup.mp hy).2
  have := hS (hxl.trans hyl.symm)
  exact ⟨this.2, this.1⟩

lemma flatMap_congr_mem {f g : ℚ → List Det} :
    ∀ {ks : List ℚ}, (∀ c ∈ ks, f c = g c) →
      ks.flatMap f = ks.flatMap g := by
  intro ks
  induction ks with
  | nil => intro _; rfl
  | cons c ks' ih =>
    intro h
    rw [List.flatMap_cons, List.flatMap_cons, h c (List.mem_cons_self _ _),
      ih (fun c' hc' => h c' (List.mem_cons_of_mem _ hc'))]

lemma flatMap_perm_pointwise {f g : ℚ → List Det} :
    ∀ (ks : List ℚ), (∀ c, (f c).Perm (g c)) →
      (ks.flatMap f).Perm (ks.flatMap g) := by
  intro ks h
  induction ks with
  | nil => exact List.Perm.refl _
  | cons c ks' ih =>
    rw [List.flatMap_cons, List.flatMap_cons]
    exact (h c).append ih

lemma flatMap_classGroup_perm :
    ∀ (ks : List ℚ) (l : List Det), ks.Nodup → (∀ x ∈ l, x.label ∈ ks) →
      (ks.flatMap (fun c => classGroup l c)).Perm l := by
  intro ks
  induction ks with
  | nil =>
    intro l _ hc
    have : l = [] :=
      List.eq_nil_iff_forall_not_mem.mpr fun x hx =>
        absurd (hc x hx) (List.not_mem_nil _)
    subst this
    exact List.Perm.refl _
  | cons c ks' ih =>
    intro l hnd hc
    rw [List.flatMap_cons]
    have hcks : c ∉ ks' := (List.nodup_cons.mp hnd).1
    have hrw : ks'.flatMap (fun c' => classGroup l c') =
        ks'.flatMap (fun c' =>
          classGroup (l.filter (fun d => !(decide (d.label = c)))) c') := by
      apply flatMap_congr_mem
      intro c' hc'
      have hne : c' ≠ c := fun h => hcks (h ▸ hc')
      simp only [classGroup, List.filter_filter]
      apply List.filter_congr
      intro x _
      by_cases hx : x.label = c'
      · simp [hx, hne]
      · simp [hx]
    rw [hrw]
    have htail :
        (ks'.flatMap (fun c' =>
          classGroup (l.filter (fun d => !(decide (d.label = c)))) c')).Perm
          (l.filter (fun d => !(decide (d.label = c)))) := by
      apply ih _ (List.Nodup.of_cons hnd)
      intro x hx
      obtain ⟨hxl, hxc⟩ := List.mem_filter.mp hx
      rcases List.mem_cons.mp (hc x hxl) with h1 | h2
      · simp [h1] at hxc
      · exact h2
    refine List.Perm.trans (List.Perm.append_left _ htail) ?_
    rw [classGroup]
    exact List.filter_append_perm _ l

/-- C4 counterexample: on three detections with disjoint boxes, scores
1, 3, 1 and classes 0, 1, 1, the suppressor applied to its own output
reorders the two equal-score detections, so the second run does not return
the first run's output unchanged. -/
theorem nms_not_idempotent :
    nmsPerClass (nmsPerClass cexDets (1/2) 10) (1/2) 10 ≠
      nmsPerClass cexDets (1/2) 10 := by decide

/-- C4 amended: running the suppressor on its own output returns the same
detections as a multiset (a permutation of that output); the list itself
can differ only in the relative order of equal-score detections of
different classes, as the counterexample shows. -/
theorem nms_idempotent_perm (dets : List Det) (t : ℚ) (tk : ℕ) :
    (nmsPerClass (nmsPerClass dets t tk) t tk).Perm
      (nmsPerClass dets t tk) := by
  have hsymR : ∀ {x y : Det},
      (iou y.box x.box ≤ t ∧ iou x.box y.box ≤ t) →
      (iou x.box y.box ≤ t ∧ iou y.box x.box ≤ t) := fun h => ⟨h.2, h.1⟩
  set L := nmsPerClass dets t tk with hL
  have hlen : L.length ≤ tk := nms_length_le dets t tk
  have hgroups : ∀ c, greedyKeep t tk (sortByScoreDesc (classGroup L c)) []
      = sortByScoreDesc (classGroup L c) := by
    intro c
    have hperm := List.perm_insertionSort scoreGE (classGroup L c)
    have hpsorted : (sortByScoreDesc (classGroup L c)).Pairwise
        (fun x y => iou y.box x.box ≤ t ∧ iou x.box y.box ≤ t) := by
      rw [sortByScoreDesc]
      exact (List.Perm.pairwise_iff hsymR hperm).mpr
        (nms_group_pairwise dets t tk c)
    have hlength : (sortByScoreDesc (classGroup L c)).length ≤ tk := by
      rw [sortByScoreDesc, hperm.length_eq]
      exact le_trans (List.length_filter_le _ _) hlen
    have h := greedyKeep_all_kept hpsorted
      (fun x _ y hy => absurd hy (List.not_mem_nil _)) (by simpa using hlength)
    simpa using h
  have hperm2 : ((classKeys L).flatMap
      (fun c => greedyKeep t tk (sortByScoreDesc (classGroup L c)) [])).Perm
        L := by
    rw [flatMap_congr_mem (fun c _ => hgroups c)]
    refine List.Perm.trans
      (flatMap_perm_pointwise _ (fun c => ?_)) (flatMap_classGroup_perm _ L
        (classKeys_nodup L) (fun x hx => mem_classKeys.mpr ⟨x, hx, rfl⟩))
    rw [sortByScoreDesc]
    exact List.perm_insertionSort scoreGE _
  show (nmsPerClass L t tk).Perm L
  simp only [nmsPerClass]
  rw [List.take_of_length_le (by
    rw [sortByScoreDesc, (List.perm_insertionSort scoreGE _).length_eq,
      hperm2.length_eq]
    exact hlen)]
  · exact List.Perm.trans
      (by rw [sortByScoreDesc]; exact List.perm_insertionSort scoreGE _)
      hperm2

end Yolo

namespace Yolo

lemma rowcol_ne {MW y y' x x' : ℕ} (hx : x < MW) (hx' : x' < MW)
    (hne : y' ≠ y) : y' * MW + x' ≠ y * MW + x := by
  intro h
  apply hne
  have hMW : 0 < MW := lt_of_le_of_lt (Nat.zero_le x) hx
  have e1 : (y' * MW + x') / MW = y' := by
    rw [Nat.mul_comm y' MW, Nat.mul_add_div hMW, Nat.div_eq_of_lt hx',
      Nat.add_zero]
  have e2 : (y * MW + x) / MW = y := by
    rw [Nat.mul_comm y MW, Nat.mul_add_div hMW, Nat.div_eq_of_lt hx,
      Nat.add_zero]
  rw [← e1, ← e2, h]

lemma compositeStep_at {sigma : ℚ → ℚ} {clsID : ℚ} {coeffs : List ℚ}
    {protoData : ℕ → ℚ} {MW MH y x : ℕ} (om : ℕ → ℚ) :
    compositeStep sigma clsID coeffs protoData MW MH y om x (y * MW + x) =
      compositePixel clsID
        (sigma (maskLogit coeffs protoData (MH * MW) (y * MW + x)))
        (om (y * MW + x)) := by
  simp [compositeStep]

lemma compositeStep_other {sigma : ℚ → ℚ} {clsID : ℚ} {coeffs : List ℚ}
    {protoData : ℕ → ℚ} {MW MH y x : ℕ} (om : ℕ → ℚ) (j : ℕ)
    (h : j ≠ y * MW + x) :
    compositeStep sigma clsID coeffs protoData MW MH y om x j = om j := by
  simp [compositeStep, h]

lemma rowFold_untouched {sigma : ℚ → ℚ} {clsID : ℚ} {coeffs : List ℚ}
    {protoData : ℕ → ℚ} {MW MH y : ℕ} :
    ∀ (xs : List ℕ) (om : ℕ → ℚ) (j : ℕ),
      (∀ x' ∈ xs, j ≠ y * MW + x') →
      xs.foldl (compositeStep sigma clsID coeffs protoData MW MH y) om j
        = om j := by
  intro xs
  induction xs with
  | nil => intro om j _; rfl
  | cons x' rest ih =>
    intro om j h
    rw [List.foldl_cons,
      ih _ j (fun x'' hx'' => h x'' (List.mem_cons_of_mem _ hx''))]
    exact compositeStep_other om j (h x' (List.mem_cons_self _ _))

lemma rowFold_hit {sigma : ℚ → ℚ} {clsID : ℚ} {coeffs : List ℚ}
    {protoData : ℕ → ℚ} {MW MH y x : ℕ} :
    ∀ (xs : List ℕ) (om : ℕ → ℚ), xs.Nodup → x ∈ xs →
      xs.foldl (compositeStep sigma clsID coeffs protoData MW MH y) om
          (y * MW + x) =
        compositePixel clsID
          (sigma (maskLogit coeffs protoData (MH * MW) (y * MW + x)))
          (om (y * MW + x)) := by
  intro xs
  induction xs with
  | nil => intro om _ hx; exact absurd hx (List.not_mem_nil _)
  | cons x' rest ih =>
    intro om hnd hx
    rw [List.foldl_cons]
    rcases List.mem_cons.mp hx with rfl | hxr
    · rw [rowFold_untouched rest _ _ (fun x'' hx'' heq => ?_)]
      · exact compositeStep_at om
      · exact (List.nodup_cons.mp hnd).1
          ((Nat.add_left_cancel heq) ▸ hx'')
    · have hne : x' ≠ x := fun h => (List.nodup_cons.mp hnd).1 (h ▸ hxr)
      rw [ih _ (List.nodup_cons.mp hnd).2 hxr,
        compositeStep_other om _ (fun h => hne (Nat.add_left_cancel h).symm)]

lemma colFold_untouched {sigma : ℚ → ℚ} {clsID : ℚ} {coeffs : List ℚ}
    {protoData : ℕ → ℚ} {MW MH mx1 mx2 : ℕ} :
    ∀ (ys : List ℕ) (om : ℕ → ℚ) (j : ℕ),
      (∀ y' ∈ ys, ∀ x', mx1 ≤ x' → x' < mx2 → j ≠ y' * MW + x') →
      ys.foldl (fun om y =>
          compositeRow sigma clsID coeffs protoData MW MH mx1 mx2 om y) om j
        = om j := by
  intro ys
  induction ys with
  | nil => intro om j _; rfl
  | cons y' rest ih =>
    intro om j h
    rw [List.foldl_cons,
      ih _ j (fun y'' hy'' => h y'' (List.mem_cons_of_mem _ hy''))]
    rw [compositeRow]
    apply rowFold_untouched
    intro x' hx'
    obtain ⟨i, hi, rfl⟩ := List.mem_range'.mp hx'
    exact h y' (List.mem_cons_self _ _) _ (by omega) (by omega)

lemma colFold_hit {sigma : ℚ → ℚ} {clsID : ℚ} {coeffs : List ℚ}
    {protoData : ℕ → ℚ} {MW MH mx1 mx2 x y : ℕ}
    (hx1 : mx1 ≤ x) (hx2 : x < mx2) (hxw : mx2 ≤ MW) :
    ∀ (ys : List ℕ) (om : ℕ → ℚ), ys.Nodup → y ∈ ys →
      ys.foldl (fun om y =>
          compositeRow sigma clsID coeffs protoData MW MH mx1 mx2 om y) om
          (y * MW + x) =
        compositePixel clsID
          (sigma (maskLogit coeffs protoData (MH * MW) (y * MW + x)))
          (om (y * MW + x)) := by
  intro ys
  induction ys with
  | nil => intro om _ hy; exact absurd hy (List.not_mem_nil _)
  | cons y' rest ih =>
    intro om hnd hy
    rw [List.foldl_cons]
    rcases List.mem_cons.mp hy with rfl | hyr
    · rw [colFold_untouched rest _ _ (fun y'' hy'' x' h1 h2 heq => ?_)]
      · rw [compositeRow]
        apply rowFold_hit
        · exact List.nodup_range' _ _ _
        · exact List.mem_range'.mpr ⟨x - mx1, by omega, by omega⟩
      · have hyy : y'' ≠ y := fun h => (List.nodup_cons.mp hnd).1 (h ▸ hy'')
        exact rowcol_ne (lt_of_lt_of_le hx2 hxw) (lt_of_lt_of_le h2 hxw)
          hyy heq.symm
    · have hne : y' ≠ y := fun h => (List.nodup_cons.mp hnd).1 (h ▸ hyr)
      rw [ih _ (List.nodup_cons.mp hnd).2 hyr]
      rw [compositeRow, rowFold_untouched _ _ _ (fun x' hx' heq => ?_)]
      obtain ⟨i, hi, rfl⟩ := List.mem_range'.mp hx'
      exact rowcol_ne (lt_of_lt_of_le hx2 hxw)
        (lt_of_lt_of_le (show mx1 + 1 * i < mx2 by omega) hxw) hne heq.symm

/-- C9: in the decodeYOLOSeg compositing loop over one surviving instance,
at every pixel (x, y) inside the instance's scaled bounding box the output
plane is overwritten exactly when the opacity (the logistic sigma of the
coefficient-prototype dot product at that pixel) scaled by 0.999 exceeds
the fractional part of the stored value, and the value written is
classId + 1 + opacity * 0.99; otherwise the stored value is unchanged. -/
theorem seg_composite_pixel (sigma : ℚ → ℚ) (clsID : ℚ) (coeffs : List ℚ)
    (protoData : ℕ → ℚ) (MW MH mx1 mx2 my1 my2 x y : ℕ) (outMap : ℕ → ℚ)
    (hx1 : mx1 ≤ x) (hx2 : x < mx2) (hy1 : my1 ≤ y) (hy2 : y < my2)
    (hxw : mx2 ≤ MW) :
    compositeInstance sigma clsID coeffs protoData MW MH mx1 mx2 my1 my2
        outMap (y * MW + x) =
      (if sigma (maskLogit coeffs protoData (MH * MW) (y * MW + x)) * 0.999
          > outMap (y * MW + x) - (⌊outMap (y * MW + x)⌋ : ℚ)
       then clsID + 1 +
          sigma (maskLogit coeffs protoData (MH * MW) (y * MW + x)) * 0.99
       else outMap (y * MW + x)) := by
  rw [compositeInstance]
  rw [colFold_hit hx1 hx2 hxw _ _ (List.nodup_range' _ _ _)
    (List.mem_range'.mpr ⟨y - my1, by omega, by omega⟩)]
  rw [compositePixel]

/-- Witness for seg_composite_pixel on a 4x2 mask with identity sigma. -/
theorem seg_composite_pixel_witness :
    compositeInstance (fun q => q) 7 [1] (fun _ => 1) 4 2 0 2 0 1
        (fun _ => 0) (0 * 4 + 1) =
      (if (fun q => q) (maskLogit [1] (fun _ => 1) (2 * 4) (0 * 4 + 1))
          * 0.999 > (fun _ => (0:ℚ)) (0 * 4 + 1) -
            ((⌊(fun _ => (0:ℚ)) (0 * 4 + 1)⌋ : ℤ) : ℚ)
       then 7 + 1 +
          (fun q => q) (maskLogit [1] (fun _ => 1) (2 * 4) (0 * 4 + 1))
            * 0.99
       else (fun _ => (0:ℚ)) (0 * 4 + 1)) :=
  seg_composite_pixel (fun q => q) 7 [1] (fun _ => 1) 4 2 0 2 0 1 1 0
    (fun _ => 0) (by decide) (by decide) (by decide) (by decide) (by decide)

end Yolo

namespace Yolo

lemma bumpMiss_ids (ts : List (ℕ × Track)) :
    (bumpMiss ts).map Prod.fst = ts.map Prod.fst := by
  rw [bumpMiss, List.map_map]
  exact List.map_congr_left fun p _ => rfl

lemma updateTrackList_ids (ts : List (ℕ × Track)) (id : ℕ) (d : Det) :
    (updateTrackList ts id d).map Prod.fst = ts.map Prod.fst := by
  rw [updateTrackList, List.map_map]
  refine List.map_congr_left fun p _ => ?_
  simp only [Function.comp]
  split <;> rfl

lemma assignLoop_ids (m : ℚ) (dets : List Det) :
    ∀ (pairs : List (ℚ × ℕ × ℕ)) (ts : List (ℕ × Track)) (tT tD : List ℕ),
      ((assignLoop m dets pairs (ts, tT, tD)).1).map Prod.fst
        = ts.map Prod.fst := by
  intro pairs
  induction pairs with
  | nil => intro ts tT tD; rfl
  | cons p rest ih =>
    intro ts tT tD
    obtain ⟨conf, id, di⟩ := p
    simp only [assignLoop]
    split
    · rfl
    · split
      · exact ih ts tT tD
      · split
        · exact ih ts tT tD
        · exact (ih _ _ _).trans (updateTrackList_ids ts id _)

lemma addNew_le (td : List ℕ) :
    ∀ (l : List (ℕ × Det)) (nid : ℕ) (ts : List (ℕ × Track)),
      nid ≤ (addNew td l nid ts).1 := by
  intro l
  induction l with
  | nil => intro nid ts; exact le_refl _
  | cons p rest ih =>
    intro nid ts
    obtain ⟨di, d⟩ := p
    simp only [addNew]
    split
    · exact ih nid ts
    · exact le_trans (Nat.le_succ nid) (ih (nid + 1) _)

lemma addNew_ids (td : List ℕ) :
    ∀ (l : List (ℕ × Det)) (nid : ℕ) (ts : List (ℕ × Track)),
      ∀ id ∈ ((addNew td l nid ts).2).map Prod.fst,
        id ∈ ts.map Prod.fst ∨ (nid ≤ id ∧ id < (addNew td l nid ts).1) := by
  intro l
  induction l with
  | nil => intro nid ts id hid; exact Or.inl hid
  | cons p rest ih =>
    intro nid ts id hid
    obtain ⟨di, d⟩ := p
    simp only [addNew] at hid ⊢
    by_cases hmem : di ∈ td
    · rw [if_pos hmem] at hid ⊢
      exact ih nid ts id hid
    · rw [if_neg hmem] at hid ⊢
      rcases ih (nid + 1) (ts ++ [(nid, mkTrack d)]) id hid with h1 | h2
      · rw [List.map_append] at h1
        rcases List.mem_append.mp h1 with h3 | h4
        · exact Or.inl h3
        · simp only [List.map_cons, List.map_nil,
            List.mem_singleton] at h4
          subst h4
          exact Or.inr ⟨le_refl _,
            lt_of_lt_of_le (Nat.lt_succ_self _) (addNew_le td rest _ _)⟩
      · exact Or.inr ⟨le_trans (Nat.le_succ _) h2.1, h2.2⟩

lemma agePrune_ids {ttl : ℕ} {ts : List (ℕ × Track)} {id : ℕ}
    (h : id ∈ (agePrune ttl ts).map Prod.fst) : id ∈ ts.map Prod.fst := by
  obtain ⟨p, hp, rfl⟩ := List.mem_map.mp h
  have hp2 := (List.mem_filter.mp hp).1
  obtain ⟨q, hq, rfl⟩ := List.mem_map.mp hp2
  exact List.mem_map.mpr ⟨q, hq, rfl⟩

lemma update_nextId_le (s : TrackerState) (dets : List Det) :
    s.nextId ≤ (update s dets).1.nextId := by
  simp only [update]
  exact addNew_le _ _ _ _

lemma update_ids (s : TrackerState) (dets : List Det) :
    ∀ id ∈ trackIds (update s dets).1,
      id ∈ trackIds s ∨ (s.nextId ≤ id ∧ id < (update s dets).1.nextId) := by
  intro id hid
  simp only [update, trackIds] at hid ⊢
  have h1 := agePrune_ids hid
  rcases addNew_ids _ _ _ _ id h1 with h2 | h3
  · left
    rw [assignLoop_ids, bumpMiss_ids] at h2
    exact h2
  · exact Or.inr h3

lemma idsBounded_init (m : ℚ) (ttl : ℕ) : idsBounded (initTracker m ttl) := by
  constructor
  · intro id hid
    simp [initTracker, trackIds] at hid
  · exact le_refl 1

lemma idsBounded_update {s : TrackerState} (h : idsBounded s)
    (dets : List Det) : idsBounded (update s dets).1 := by
  obtain ⟨hb, h1⟩ := h
  constructor
  · intro id hid
    rcases update_ids s dets id hid with h2 | h3
    · obtain ⟨ha, hc⟩ := hb id h2
      exact ⟨ha, lt_of_lt_of_le hc (update_nextId_le s dets)⟩
    · exact ⟨le_trans h1 h3.1, h3.2⟩
  · exact le_trans h1 (update_nextId_le s dets)

lemma runUpdates_bounded :
    ∀ (l : List (List Det)) {s : TrackerState}, idsBounded s →
      idsBounded (runUpdates s l) := by
  intro l
  induction l with
  | nil => intro s h; exact h
  | cons dets rest ih => intro s h; exact ih (idsBounded_update h dets)

lemma runUpdates_nextId_le :
    ∀ (l : List (List Det)) (s : TrackerState),
      s.nextId ≤ (runUpdates s l).nextId := by
  intro l
  induction l with
  | nil => intro s; exact le_refl _
  | cons dets rest ih =>
    intro s
    exact le_trans (update_nextId_le s dets) (ih (update s dets).1)

lemma runUpdates_append (s : TrackerState) (l1 l2 : List (List Det)) :
    runUpdates s (l1 ++ l2) = runUpdates (runUpdates s l1) l2 := by
  simp [runUpdates, List.foldl_append]

lemma runTake_succ (m : ℚ) (ttl : ℕ) (seqs : List (List Det)) (i : ℕ) :
    runUpdates (initTracker m ttl) (seqs.take (i + 1)) =
      if h : i < seqs.length
      then (update (runUpdates (initTracker m ttl) (seqs.take i)) seqs[i]).1
      else runUpdates (initTracker m ttl) (seqs.take i) := by
  split
  · rename_i h
    rw [List.take_succ, List.getElem?_eq_getElem h, runUpdates_append]
    rfl
  · rename_i h
    rw [List.take_succ, List.getElem?_eq_none (le_of_not_lt h)]
    simp

lemma runTake_nextId_mono (m : ℚ) (ttl : ℕ) (seqs : List (List Det))
    {i k : ℕ} (h : i ≤ k) :
    (runUpdates (initTracker m ttl) (seqs.take i)).nextId ≤
      (runUpdates (initTracker m ttl) (seqs.take k)).nextId := by
  have hs : seqs.take k = seqs.take i ++ (seqs.drop i).take (k - i) := by
    conv_lhs => rw [show k = i + (k - i) from (Nat.add_sub_cancel' h).symm]
    exact List.take_add seqs i (k - i)
  rw [hs, runUpdates_append]
  exact runUpdates_nextId_le _ _

lemma no_reuse_after (m : ℚ) (ttl : ℕ) (seqs : List (List Det)) (j id : ℕ)
    (hb : id < (runUpdates (initTracker m ttl) (seqs.take j)).nextId)
    (hnot : id ∉ trackIds (runUpdates (initTracker m ttl) (seqs.take j))) :
    ∀ Δ, id ∉ trackIds (runUpdates (initTracker m ttl)
      (seqs.take (j + Δ))) := by
  intro Δ
  induction Δ with
  | zero => exact hnot
  | succ Δ ih =>
    rw [show j + (Δ + 1) = (j + Δ) + 1 from rfl, runTake_succ]
    split
    · rename_i h
      intro hmem
      rcases update_ids _ _ id hmem with h1 | h2
      · exact ih h1
      · have hmono := runTake_nextId_mono m ttl seqs (Nat.le_add_right j Δ)
        omega
    · exact ih

lemma update_emit (s : TrackerState) (dets : List Det) :
    ∀ o ∈ (update s dets).2,
      ∃ tr, (o.id, tr) ∈ (update s dets).1.tracks ∧ tr.miss = 0 := by
  intro o ho
  simp only [update, emitTracks] at ho ⊢
  obtain ⟨p, hp, rfl⟩ := List.mem_map.mp ho
  obtain ⟨hp1, hp2⟩ := List.mem_filter.mp hp
  refine ⟨p.2, ?_, by simpa using hp2⟩
  simpa using hp1

/-- C2: for every update sequence, every emitted track corresponds to a
live track with miss equal to zero; every live id is at least 1 and below
the nextId counter; and an id present at step i but absent at a later step
j never occurs again at any step k at or after j (ids are never reused). -/
theorem tracker_contract (m : ℚ) (ttl : ℕ) (seqs : List (List Det)) :
    (∀ dets : List Det,
      ∀ o ∈ (update (runUpdates (initTracker m ttl) seqs) dets).2,
        ∃ tr, (o.id, tr) ∈
            (update (runUpdates (initTracker m ttl) seqs) dets).1.tracks ∧
          tr.miss = 0) ∧
    (∀ i, ∀ id ∈ trackIds (runUpdates (initTracker m ttl) (seqs.take i)),
        1 ≤ id ∧
          id < (runUpdates (initTracker m ttl) (seqs.take i)).nextId) ∧
    (∀ i j k id, i ≤ j → j ≤ k →
        id ∈ trackIds (runUpdates (initTracker m ttl) (seqs.take i)) →
        id ∉ trackIds (runUpdates (initTracker m ttl) (seqs.take j)) →
        id ∉ trackIds (runUpdates (initTracker m ttl) (seqs.take k))) := by
  refine ⟨fun dets => update_emit _ dets,
    fun i => (runUpdates_bounded _ (idsBounded_init m ttl)).1, ?_⟩
  intro i j k id hij hjk hin hnotj
  have hb : id < (runUpdates (initTracker m ttl) (seqs.take j)).nextId :=
    lt_of_lt_of_le
      ((runUpdates_bounded _ (idsBounded_init m ttl)).1 id hin).2
      (runTake_nextId_mono m ttl seqs hij)
  have h := no_reuse_after m ttl seqs j id hb hnotj (k - j)
  rwa [Nat.add_sub_cancel' hjk] at h

/-- Witness for tracker_contract: a track created in frame 1, matched in no
later frame with ttl 0, disappears after frame 2 and its id 1 never
reappears, even though frame 3 carries a detection again; and the track
matched in frame 2 of a two-frame run is emitted with miss zero. -/
theorem tracker_contract_witness :
    (1 ∉ trackIds (runUpdates (initTracker (1/2) 0)
      (([[wDet], [], [wDet]] : List (List Det)).take 3))) ∧
    (∃ tr, ((⟨1, (0, 0, 10, 10), 0, 1, [], none⟩ : TrackOut).id, tr) ∈
        (update (runUpdates (initTracker (1/2) 0) [[wDet]])
          [wDet]).1.tracks ∧ tr.miss = 0) :=
  ⟨(tracker_contract (1/2) 0 [[wDet], [], [wDet]]).2.2 1 2 3 1 (by decide)
      (by decide) (by decide) (by decide),
   (tracker_contract (1/2) 0 [[wDet]]).1 [wDet]
      ⟨1, (0, 0, 10, 10), 0, 1, [], none⟩ (by decide)⟩

end Yolo
